import Mathlib

/-!
Shallow embedding of the configuration engine of `src/shared/config_manager.py`
together with the default-profile tables of `src/shared/constants.py`.

Python dictionaries are modelled as insertion-ordered association lists with
unique keys (`List (String × Value)`); in-place mutation becomes functional
tree rebuilding, which coincides with the source because the configuration
tree is a tree (no aliasing between subtrees).  A raised Python exception is
modelled as `none` (or as an explicit `PyErr` where the kind of exception
matters).  Floating-point values are represented by the literal string they
were parsed from; no claim compares distinct float literals numerically.
-/

/-- A Python value as it occurs in a configuration tree: the result of parsing
the YAML file, of environment-value coercion, or of a `set` call. -/
inductive Value where
  | null : Value
  | bool (b : Bool) : Value
  | int (n : Int) : Value
  | float (lit : String) : Value
  | str (s : String) : Value
  | list (elems : List Value) : Value
  | dict (fields : List (String × Value)) : Value

/-- The kind of Python exception raised by the tree-walking code. -/
inductive PyErr where
  | typeErr : PyErr
  | keyErr : PyErr
  | indexErr : PyErr
  deriving DecidableEq

/-- First-match lookup in an association list (Python dict indexing; keys are
unique in any dict produced by the source). -/
def lookupD : List (String × Value) → String → Option Value
  | [], _ => none
  | (k', v) :: rest, k => if k' = k then some v else lookupD rest k

/-- Python dict assignment `d[k] = v`: replace the first binding of `k`
in place (keeping its position), else append a new binding. -/
def insertD : List (String × Value) → String → Value → List (String × Value)
  | [], k, v => [(k, v)]
  | (k', w) :: rest, k, v =>
    if k' = k then (k, v) :: rest else (k', w) :: insertD rest k v

/-- Whether a value is a Python dict. -/
def Value.isDict : Value → Bool
  | .dict _ => true
  | _ => false

/-- Whether a character list starts with the given pattern. -/
def charsStartWith : List Char → List Char → Bool
  | _, [] => true
  | [], _ :: _ => false
  | c :: cs, p :: ps => c = p && charsStartWith cs ps

/-- Contiguous-substring test on character lists (Python `in` on strings). -/
def charsHaveSub : List Char → List Char → Bool
  | [], pat => pat.isEmpty
  | c :: rest, pat => charsStartWith (c :: rest) pat || charsHaveSub rest pat

/-- Python membership test `k in v` for the value kinds of the tree:
dict key lookup, substring test on strings, element equality on lists;
`TypeError` (modelled as `none`) on the remaining kinds. -/
def pyContains (v : Value) (k : String) : Option Bool :=
  match v with
  | .dict d => some (lookupD d k).isSome
  | .str s => some (charsHaveSub s.toList k.toList)
  | .list l => some (l.any fun x => match x with | .str s => s = k | _ => false)
  | _ => none

/-- Python subscription `v[k]` with a string key, as used by `ConfigManager.get`:
dict lookup succeeds or raises `KeyError`; every other kind raises `TypeError`.
Both exceptions are modelled as `none` because the caller catches both. -/
def pySubscript (v : Value) (k : String) : Option Value :=
  match v with
  | .dict d => lookupD d k
  | _ => none

/-- The loop of `ConfigManager.get`: walk the tree one segment at a time,
`none` when any step raises (`KeyError`/`TypeError`). -/
def walkV : Value → List String → Option Value
  | v, [] => some v
  | v, k :: ks =>
    match pySubscript v k with
    | some c => walkV c ks
    | none => none

/-- Python `key.split('.')`: splitting on a single character, never empty
(the empty string splits to `[""]`). -/
def splitDot (s : String) : List String :=
  (s.toList.splitOn '.').map List.asString

/-- Models `ConfigManager.get`: walk the dot-path, catching `KeyError`/`TypeError`
and returning the caller-supplied default. -/
def ConfigManager.get (cfg : Value) (key : String) (dflt : Value) : Value :=
  (walkV cfg (splitDot key)).getD dflt

/-- The shared body of `ConfigManager.set` and `ConfigManager._set_nested_value`:
walk the segments before the last, creating an empty dict at a missing
segment, then assign at the last segment.  Returns the post-state of the tree
(mutations stay visible even when an exception aborts the walk) together with
the exception raised, if any.  An existing non-dict met along the way raises
`TypeError` whatever its kind: membership raises on numbers and `None`, and
subscription/assignment raises on strings and lists. -/
def setStep : Value → List String → Value → Value × Option PyErr
  | cur, [], _ => (cur, some .indexErr)
  | cur, [k], v =>
    match cur with
    | .dict d => (.dict (insertD d k v), none)
    | _ => (cur, some .typeErr)
  | cur, k :: k₂ :: ks, v =>
    match cur with
    | .dict d =>
      match lookupD d k with
      | some c =>
        match setStep c (k₂ :: ks) v with
        | (t, e) => (.dict (insertD d k t), e)
      | none =>
        match setStep (Value.dict []) (k₂ :: ks) v with
        | (t, e) => (.dict (insertD d k t), e)
    | _ => (cur, some .typeErr)

/-- Models `ConfigManager.set`: dot-path write through `setStep`. -/
def ConfigManager.set (cfg : Value) (key : String) (v : Value) : Value × Option PyErr :=
  setStep cfg (splitDot key) v

/-- Models `ConfigManager._set_nested_value` applied to an already-split path,
succeeding only when no exception is raised (an exception would propagate out
of `_load_config`). -/
def setNested (cfg : Value) (path : List String) (v : Value) : Option Value :=
  match setStep cfg path v with
  | (t, none) => some t
  | (_, some _) => none

/-! ### Value coercion (`ConfigManager._convert_env_value`) -/

/-- ASCII lowering, as applied by Python `str.lower` to the inputs at issue. -/
def strLower (s : String) : String :=
  ((s.toList.map Char.toLower)).asString

/-- The whitespace stripped by Python's number parsers. -/
def isPyWs (c : Char) : Bool :=
  c = ' ' || c = '\t' || c = '\n' || c = '\r' || c.toNat = 11 || c.toNat = 12

/-- Strip leading and trailing whitespace. -/
def trimWs (l : List Char) : List Char :=
  ((l.dropWhile isPyWs).reverse.dropWhile isPyWs).reverse

/-- A nonempty run of base-10 digits with single underscores between digits,
as accepted by Python's `int`/`float` digit grammar. -/
def underscoreGroupsOk (l : List Char) : Bool :=
  (l.splitOn '_').all fun g => !g.isEmpty && g.all Char.isDigit

/-- Numeric value of a digit run, underscores ignored. -/
def digitsToNat (l : List Char) : Nat :=
  (l.filter (· != '_')).foldl (fun a c => a * 10 + (c.toNat - 48)) 0

/-- Python `int(s)` on a string: optional surrounding whitespace, optional
sign, then a base-10 digit run; `none` models `ValueError`. -/
def pyIntParse (s : String) : Option Int :=
  match trimWs s.toList with
  | '+' :: rest => if underscoreGroupsOk rest then some (Int.ofNat (digitsToNat rest)) else none
  | '-' :: rest => if underscoreGroupsOk rest then some (-(Int.ofNat (digitsToNat rest))) else none
  | rest => if underscoreGroupsOk rest then some (Int.ofNat (digitsToNat rest)) else none

/-- Drop one leading sign character. -/
def stripSign : List Char → List Char
  | '+' :: r => r
  | '-' :: r => r
  | r => r

/-- Exponent marker of a float literal. -/
def isExpChar (c : Char) : Bool := c = 'e' || c = 'E'

/-- The exponent part after `e`/`E`: optional sign then a digit run. -/
def expPartOk (l : List Char) : Bool :=
  underscoreGroupsOk (stripSign l)

/-- The mantissa of a float literal: digits with at most one decimal point
and at least one digit overall. -/
def mantissaOk (m : List Char) : Bool :=
  let ip := m.takeWhile (· != '.')
  let rest := m.dropWhile (· != '.')
  match rest with
  | [] => underscoreGroupsOk ip
  | _ :: fp =>
    if fp.any (· = '.') then false
    else if ip.isEmpty && fp.isEmpty then false
    else (ip.isEmpty || underscoreGroupsOk ip) && (fp.isEmpty || underscoreGroupsOk fp)

/-- Whether Python `float(s)` accepts the string: optional whitespace and
sign, then `inf`/`infinity`/`nan` (case-insensitive) or a decimal mantissa
with optional exponent. -/
def pyFloatOk (s : String) : Bool :=
  let core := stripSign (trimWs s.toList)
  let lower := core.map Char.toLower
  if lower = "inf".toList || lower = "infinity".toList || lower = "nan".toList then true
  else
    let mant := core.takeWhile (fun c => !isExpChar c)
    let rest := core.dropWhile (fun c => !isExpChar c)
    match rest with
    | [] => mantissaOk mant
    | _ :: ex => if ex.any isExpChar then false else mantissaOk mant && expPartOk ex

/-- Whether a float literal denotes `0.0` (every mantissa digit is zero):
used only for Python truthiness of a float value. -/
def floatIsZero (s : String) : Bool :=
  let core := stripSign (trimWs s.toList)
  let mant := core.takeWhile (fun c => !isExpChar c)
  mant.any Char.isDigit && (mant.filter Char.isDigit).all (· = '0')

/-- Models `ConfigManager._convert_env_value`: boolean on a case-insensitive match of
`true`/`false`, else `int(...)`, else `float(...)`, else the original string. -/
def ConfigManager.convertEnvValue (value : String) : Value :=
  if strLower value = "true" || strLower value = "false" then
    .bool (strLower value = "true")
  else
    match pyIntParse value with
    | some n => .int n
    | none => if pyFloatOk value then .float value else .str value

/-! ### Environment overrides and file loading -/

/-- A snapshot of the process environment (`os.getenv`), unique keys. -/
def envGet (env : List (String × String)) (k : String) : Option String :=
  match env with
  | [] => none
  | (k', v) :: rest => if k' = k then some v else envGet rest k

/-- The fixed `env_mappings` table of `ConfigManager._apply_env_overrides`. -/
def envMappings : List (String × List String) :=
  [("MQTT_HOST", ["mqtt", "host"]),
   ("MQTT_PORT", ["mqtt", "port"]),
   ("MQTT_USERNAME", ["mqtt", "username"]),
   ("MQTT_PASSWORD", ["mqtt", "password"]),
   ("MQTT_USE_TLS", ["mqtt", "use_tls"]),
   ("SENSOR_PIN", ["sensor_pin"]),
   ("SENSOR_TYPE", ["sensor_type"]),
   ("UPDATE_INTERVAL", ["update_interval"]),
   ("CLIENT_ID", ["client_id"]),
   ("DATABASE_PATH", ["database", "path"]),
   ("DASHBOARD_PORT", ["dashboard", "port"]),
   ("LOG_LEVEL", ["logging", "level"])]

/-- The loop of `_apply_env_overrides`: for each table entry whose variable is
set, coerce the value and write it at the target path; an exception raised by
the nested write aborts the loop and propagates (hence `none`). -/
def overridesFold : List (String × List String) → Value → List (String × String) → Option Value
  | [], cfg, _ => some cfg
  | (ek, p) :: rest, cfg, env =>
    match envGet env ek with
    | none => overridesFold rest cfg env
    | some s =>
      match setNested cfg p (ConfigManager.convertEnvValue s) with
      | some cfg₂ => overridesFold rest cfg₂ env
      | none => none

/-- Models `ConfigManager._apply_env_overrides` over the fixed table. -/
def ConfigManager.applyEnvOverrides (cfg : Value) (env : List (String × String)) : Option Value :=
  overridesFold envMappings cfg env

/-- Python truthiness, as used by `yaml.safe_load(f) or {}`. -/
def pyTruthy : Value → Bool
  | .null => false
  | .bool b => b
  | .int n => n != 0
  | .float lit => !(floatIsZero lit)
  | .str s => !s.isEmpty
  | .list l => !l.isEmpty
  | .dict d => !d.isEmpty

/-- The observable state of the configuration file at load time: absent,
present but not valid YAML, or parsed to a value. -/
inductive FileState where
  | missing : FileState
  | malformed : FileState
  | parsed (v : Value) : FileState

/-- The tree `_load_config` starts from before overrides: `{}` for a missing
file, `yaml.safe_load(f) or {}` for a parsed one. -/
def fileBase : FileState → Value
  | .missing => .dict []
  | .malformed => .dict []
  | .parsed v => if pyTruthy v then v else .dict []

/-- Models `ConfigManager._load_config`: a parse failure propagates (the handler logs
and re-raises); a missing file degrades to the empty tree; then environment
overrides are applied, whose exceptions also propagate. -/
def ConfigManager.loadConfig (fs : FileState) (env : List (String × String)) : Option Value :=
  match fs with
  | .malformed => none
  | .missing => ConfigManager.applyEnvOverrides (fileBase .missing) env
  | .parsed v => ConfigManager.applyEnvOverrides (fileBase (.parsed v)) env

/-- Models `ConfigManager.reload`: it runs `_load_config` again and nothing else — in
particular no defaults hook is invoked, by either subclass. -/
def ConfigManager.reload (fs : FileState) (env : List (String × String)) : Option Value :=
  ConfigManager.loadConfig fs env

/-! ### Default profiles (`shared/constants.py`) and the subclasses -/

/-- The table `DEFAULT_CLIENT_CONFIG` from `src/shared/constants.py`. -/
def DEFAULT_CLIENT_CONFIG : List (String × Value) :=
  [("client_id", .str "pi_client_001"),
   ("sensor_pin", .int 4),
   ("sensor_type", .str "DHT11"),
   ("update_interval", .int 30),
   ("mqtt", .dict
     [("host", .str "192.168.1.112"),
      ("port", .int 8883),
      ("username", .str ""),
      ("password", .str ""),
      ("use_tls", .bool true),
      ("ca_cert", .str "/etc/ssl/certs/ca-certificates.crt")]),
   ("modbus", .dict
     [("enabled", .bool false),
      ("port", .int 5020),
      ("slave_id", .int 1)]),
   ("logging", .dict
     [("level", .str "INFO"),
      ("max_size", .str "10MB"),
      ("backup_count", .int 5)])]

/-- The table `DEFAULT_HOST_CONFIG` from `src/shared/constants.py`. -/
def DEFAULT_HOST_CONFIG : List (String × Value) :=
  [("mqtt", .dict
     [("host", .str "0.0.0.0"),
      ("port", .int 8883),
      ("websocket_port", .int 9001),
      ("username", .str "admin"),
      ("password", .str "secure_password_123"),
      ("use_tls", .bool true),
      ("cert_file", .str "/etc/ssl/certs/mqtt-server.crt"),
      ("key_file", .str "/etc/ssl/private/mqtt-server.key")]),
   ("database", .dict
     [("type", .str "sqlite"),
      ("path", .str "data/sensors.db"),
      ("retention_days", .int 365)]),
   ("dashboard", .dict
     [("host", .str "0.0.0.0"),
      ("port", .int 8080),
      ("debug", .bool false),
      ("secret_key", .str "your-secret-key-here")]),
   ("logging", .dict
     [("level", .str "INFO"),
      ("max_size", .str "50MB"),
      ("backup_count", .int 10)])]

/-- Models `_apply_defaults` of both subclasses: for each profile entry, `key not in
self._config` (which may itself raise `TypeError`) guards a top-level insert;
exceptions propagate out of the constructor. -/
def applyDefaultsFold : List (String × Value) → Value → Option Value
  | [], cfg => some cfg
  | (k, v) :: rest, cfg =>
    match pyContains cfg k with
    | none => none
    | some true => applyDefaultsFold rest cfg
    | some false =>
      match cfg with
      | .dict d => applyDefaultsFold rest (.dict (insertD d k v))
      | _ => none

/-- Models `ClientConfigManager.__init__`: base resolution then client defaults. -/
def ClientConfigManager.construct (fs : FileState) (env : List (String × String)) : Option Value :=
  (ConfigManager.loadConfig fs env).bind (applyDefaultsFold DEFAULT_CLIENT_CONFIG)

/-- Models `HostConfigManager.__init__`: base resolution then host defaults. -/
def HostConfigManager.construct (fs : FileState) (env : List (String × String)) : Option Value :=
  (ConfigManager.loadConfig fs env).bind (applyDefaultsFold DEFAULT_HOST_CONFIG)

/-! ### Schema validation (`validate_config` / `_validate_recursive`) -/

/-- A Python type object usable as the second argument of `isinstance`
in a schema leaf. -/
inductive PyType where
  | tBool : PyType
  | tInt : PyType
  | tFloat : PyType
  | tStr : PyType
  | tList : PyType
  | tDict : PyType
  | tNone : PyType
  deriving DecidableEq

/-- A schema node: a primitive-type tag, or a nested mapping of keys to
schema nodes (Python: a dict value in the schema). -/
inductive Schema where
  | ty (t : PyType) : Schema
  | node (fields : List (String × Schema)) : Schema

/-- Python `isinstance` on tree values; `bool` is a subclass of `int`. -/
def pyIsinstance (v : Value) (t : PyType) : Bool :=
  match v, t with
  | .bool _, .tBool => true
  | .bool _, .tInt => true
  | .int _, .tInt => true
  | .float _, .tFloat => true
  | .str _, .tStr => true
  | .list _, .tList => true
  | .dict _, .tDict => true
  | .null, .tNone => true
  | _, _ => false

mutual

/-- Models `ConfigManager._validate_recursive`: visit schema keys in declaration
order, returning `False` at the first missing key, wrong container kind, or
failing `isinstance`; `none` models an uncaught exception inside the walk
(possible only when the visited tree node is not a dict).  The loop body is
split into the per-entry shape check `validateEntry` (the branch on whether
the schema value is a nested dict) and the loop `validateRec`. -/
def validateRec : Value → List (String × Schema) → Option Bool
  | _, [] => some true
  | cfg, (k, sch) :: rest =>
    match pyContains cfg k with
    | none => none
    | some b =>
      if b then
        match validateEntry cfg k sch with
        | none => none
        | some b₂ => if b₂ then validateRec cfg rest else some false
      else some false

/-- The body of one loop iteration of `_validate_recursive` after the
membership test: `isinstance(expected_type, dict)` decides between recursion
into `config[key]` and a plain `isinstance` check. -/
def validateEntry : Value → String → Schema → Option Bool
  | cfg, k, .ty t =>
    match pySubscript cfg k with
    | none => none
    | some child => some (pyIsinstance child t)
  | cfg, k, .node fields =>
    match pySubscript cfg k with
    | none => none
    | some child => if child.isDict then validateRec child fields else some false

end

/-- Models `ConfigManager.validate_config`: run the recursive check, catching any
exception as `False`. -/
def ConfigManager.validateConfig (cfg : Value) (schema : List (String × Schema)) : Bool :=
  (validateRec cfg schema).getD false

/-- Spec-side notion of a value having the shape a schema node demands:
a matching `isinstance` at a leaf, or a dict carrying every schema key with a
conforming value.  Used to state what `validate` decides. -/
inductive SchemaConf : Schema → Value → Prop where
  | ty : ∀ (t : PyType) (v : Value), pyIsinstance v t = true → SchemaConf (.ty t) v
  | node : ∀ (fields : List (String × Schema)) (d : List (String × Value)),
      (∀ k sch, (k, sch) ∈ fields → (lookupD d k).isSome = true) →
      (∀ k sch w, (k, sch) ∈ fields → lookupD d k = some w → SchemaConf sch w) →
      SchemaConf (.node fields) (.dict d)

/-! ### Path interference and writability -/

/-- Whether `p` is a leading segment-sequence of `q`. -/
def pathPre : List String → List String → Bool
  | [], _ => true
  | x :: xs, q =>
    match q with
    | [] => false
    | y :: ys => x = y && pathPre xs ys

/-- Two dot-paths are independent when neither is a leading segment-sequence
of the other: a write at one cannot touch the value at the other. -/
def pathsIndep (p q : List String) : Bool :=
  !(pathPre p q) && !(pathPre q p)

/-- The target paths of the entries of an override table are pairwise
independent. -/
def entriesIndep : List (String × List String) → Bool
  | [] => true
  | (_, p) :: rest => (rest.all fun e => pathsIndep p e.2) && entriesIndep rest

/-- A path can be written into a tree without raising: every existing value
strictly before the final segment of the walk is a dict (a missing
intermediate is fine — the write creates it). -/
def writableB : Value → List String → Bool
  | _, [] => true
  | cur, [_] => cur.isDict
  | cur, k :: k₂ :: ks =>
    match cur with
    | .dict d =>
      match lookupD d k with
      | none => true
      | some c => writableB c (k₂ :: ks)
    | _ => false

/-- The agreement between a tree and an environment snapshot that holds right
after resolution: every override path whose variable is set already stores
the coerced value of that variable. -/
def envConsistent (t : Value) (env : List (String × String)) : Prop :=
  ∀ ek p, (ek, p) ∈ envMappings → ∀ s, envGet env ek = some s →
    walkV t p = some (ConfigManager.convertEnvValue s)

/-! ### Association-list lemmas -/

theorem lookupD_insertD_self (d : List (String × Value)) (k : String) (v : Value) :
    lookupD (insertD d k v) k = some v := by
  induction d with
  | nil => simp [insertD, lookupD]
  | cons hd tl ih =>
    obtain ⟨k', w⟩ := hd
    by_cases h : k' = k
    · simp [insertD, h, lookupD]
    · simp [insertD, h, lookupD, ih]

theorem lookupD_insertD_ne (d : List (String × Value)) (k : String) (v : Value)
    (k₂ : String) (hne : k₂ ≠ k) :
    lookupD (insertD d k v) k₂ = lookupD d k₂ := by
  have hkk : ¬(k = k₂) := fun e => hne e.symm
  induction d with
  | nil => simp [insertD, lookupD, hkk]
  | cons hd tl ih =>
    obtain ⟨k', w⟩ := hd
    by_cases h : k' = k
    · simp [insertD, h, lookupD, hkk]
    · simp [insertD, h, lookupD, ih]

theorem insertD_of_lookupD (d : List (String × Value)) (k : String) (v : Value)
    (hl : lookupD d k = some v) : insertD d k v = d := by
  induction d with
  | nil => simp [lookupD] at hl
  | cons hd tl ih =>
    obtain ⟨k', w⟩ := hd
    by_cases h : k' = k
    · subst h
      simp [lookupD] at hl
      simp [insertD, hl]
    · simp [lookupD, h] at hl
      simp [insertD, h, ih hl]

/-! ### Writing and walking -/

theorem st_walk_self (p : List String) : ∀ (cfg v t : Value),
    setStep cfg p v = (t, none) → walkV t p = some v := by
  induction p with
  | nil => intro cfg v t h; simp [setStep] at h
  | cons k ks ih =>
    cases ks with
    | nil =>
      intro cfg v t h
      cases cfg with
      | dict d =>
        simp only [setStep] at h
        injection h with h1 h2
        subst h1
        simp [walkV, pySubscript, lookupD_insertD_self]
      | null => simp [setStep] at h
      | bool b => simp [setStep] at h
      | int n => simp [setStep] at h
      | float lit => simp [setStep] at h
      | str s => simp [setStep] at h
      | list l => simp [setStep] at h
    | cons k₂ ks' =>
      intro cfg v t h
      cases cfg with
      | dict d =>
        cases hl : lookupD d k with
        | some c =>
          simp only [setStep, hl] at h
          cases hs : setStep c (k₂ :: ks') v with
          | mk t' e' =>
            rw [hs] at h
            dsimp only at h
            injection h with h1 h2
            subst h1
            subst h2
            simp only [walkV, pySubscript, lookupD_insertD_self]
            exact ih c v t' hs
        | none =>
          simp only [setStep, hl] at h
          cases hs : setStep (Value.dict []) (k₂ :: ks') v with
          | mk t' e' =>
            rw [hs] at h
            dsimp only at h
            injection h with h1 h2
            subst h1
            subst h2
            simp only [walkV, pySubscript, lookupD_insertD_self]
            exact ih (Value.dict []) v t' hs
      | null => simp [setStep] at h
      | bool b => simp [setStep] at h
      | int n => simp [setStep] at h
      | float lit => simp [setStep] at h
      | str s => simp [setStep] at h
      | list l => simp [setStep] at h

theorem writableB_empty (p : List String) : writableB (Value.dict []) p = true := by
  cases p with
  | nil => rfl
  | cons a as => cases as <;> simp [writableB, Value.isDict, lookupD]

theorem st_total (p : List String) : ∀ (cfg v : Value),
    writableB cfg p = true → p ≠ [] → (setStep cfg p v).2 = none := by
  induction p with
  | nil => intro cfg v hw hne; exact absurd rfl hne
  | cons k ks ih =>
    cases ks with
    | nil =>
      intro cfg v hw _
      cases cfg with
      | dict d => simp [setStep]
      | null => simp [writableB, Value.isDict] at hw
      | bool b => simp [writableB, Value.isDict] at hw
      | int n => simp [writableB, Value.isDict] at hw
      | float lit => simp [writableB, Value.isDict] at hw
      | str s => simp [writableB, Value.isDict] at hw
      | list l => simp [writableB, Value.isDict] at hw
    | cons k₂ ks' =>
      intro cfg v hw _
      cases cfg with
      | dict d =>
        cases hl : lookupD d k with
        | none =>
          simp only [setStep, hl]
          exact ih (Value.dict []) v (writableB_empty (k₂ :: ks')) (by simp)
        | some c =>
          simp only [writableB, hl] at hw
          simp only [setStep, hl]
          exact ih c v hw (by simp)
      | null => simp [writableB] at hw
      | bool b => simp [writableB] at hw
      | int n => simp [writableB] at hw
      | float lit => simp [writableB] at hw
      | str s => simp [writableB] at hw
      | list l => simp [writableB] at hw

theorem pathPre_cons_self (a : String) (as bs : List String) :
    pathPre (a :: as) (a :: bs) = pathPre as bs := by
  simp [pathPre]

theorem st_indep (q : List String) : ∀ (cfg v t : Value) (p : List String),
    setStep cfg q v = (t, none) → pathsIndep p q = true → walkV t p = walkV cfg p := by
  induction q with
  | nil => intro cfg v t p h _; simp [setStep] at h
  | cons k ks ih =>
    cases ks with
    | nil =>
      intro cfg v t p h hInd
      simp only [pathsIndep, Bool.and_eq_true, Bool.not_eq_true'] at hInd
      cases cfg with
      | dict d =>
        simp only [setStep] at h
        injection h with h1 h2
        subst h1
        cases p with
        | nil => simp [pathPre] at hInd
        | cons k' ps =>
          have hkk : ¬(k' = k) := by
            intro he
            subst he
            simp [pathPre] at hInd
          simp only [walkV, pySubscript, lookupD_insertD_ne d k v k' hkk]
      | null => simp [setStep] at h
      | bool b => simp [setStep] at h
      | int n => simp [setStep] at h
      | float lit => simp [setStep] at h
      | str s => simp [setStep] at h
      | list l => simp [setStep] at h
    | cons k₂ ks' =>
      intro cfg v t p h hInd
      simp only [pathsIndep, Bool.and_eq_true, Bool.not_eq_true'] at hInd
      cases cfg with
      | dict d =>
        cases hl : lookupD d k with
        | some c =>
          simp only [setStep, hl] at h
          cases hs : setStep c (k₂ :: ks') v with
          | mk t' e' =>
            rw [hs] at h
            dsimp only at h
            injection h with h1 h2
            subst h1
            subst h2
            cases p with
            | nil => simp [pathPre] at hInd
            | cons k' ps =>
              by_cases hkk : k' = k
              · subst hkk
                simp only [pathPre_cons_self] at hInd
                have htail : pathsIndep ps (k₂ :: ks') = true := by
                  simp [pathsIndep, hInd.1, hInd.2]
                have hrec := ih c v t' ps hs htail
                simp only [walkV, pySubscript, lookupD_insertD_self, hl]
                exact hrec
              · simp only [walkV, pySubscript, lookupD_insertD_ne d k t' k' hkk]
        | none =>
          simp only [setStep, hl] at h
          cases hs : setStep (Value.dict []) (k₂ :: ks') v with
          | mk t' e' =>
            rw [hs] at h
            dsimp only at h
            injection h with h1 h2
            subst h1
            subst h2
            cases p with
            | nil => simp [pathPre] at hInd
            | cons k' ps =>
              by_cases hkk : k' = k
              · subst hkk
                simp only [pathPre_cons_self] at hInd
                cases ps with
                | nil => simp [pathPre] at hInd
                | cons p₂ ps' =>
                  have htail : pathsIndep (p₂ :: ps') (k₂ :: ks') = true := by
                    simp [pathsIndep, hInd.1, hInd.2]
                  have hrec := ih (Value.dict []) v t' (p₂ :: ps') hs htail
                  have hnil : walkV (Value.dict []) (p₂ :: ps') = none := by
                    simp [walkV, pySubscript, lookupD]
                  rw [hnil] at hrec
                  simp only [walkV, pySubscript, lookupD_insertD_self, hl]
                  exact hrec
              · simp only [walkV, pySubscript, lookupD_insertD_ne d k t' k' hkk]
      | null => simp [setStep] at h
      | bool b => simp [setStep] at h
      | int n => simp [setStep] at h
      | float lit => simp [setStep] at h
      | str s => simp [setStep] at h
      | list l => simp [setStep] at h

theorem st_fix (p : List String) : ∀ (cfg v : Value),
    walkV cfg p = some v → p ≠ [] → setStep cfg p v = (cfg, none) := by
  induction p with
  | nil => intro cfg v _ hne; exact absurd rfl hne
  | cons k ks ih =>
    cases ks with
    | nil =>
      intro cfg v hwk _
      cases cfg with
      | dict d =>
        simp only [walkV, pySubscript] at hwk
        cases hl : lookupD d k with
        | none => rw [hl] at hwk; simp at hwk
        | some c =>
          rw [hl] at hwk
          simp only [walkV] at hwk
          obtain rfl : c = v := Option.some.inj hwk
          simp [setStep, insertD_of_lookupD _ _ _ hl]
      | null => simp [walkV, pySubscript] at hwk
      | bool b => simp [walkV, pySubscript] at hwk
      | int n => simp [walkV, pySubscript] at hwk
      | float lit => simp [walkV, pySubscript] at hwk
      | str s => simp [walkV, pySubscript] at hwk
      | list l => simp [walkV, pySubscript] at hwk
    | cons k₂ ks' =>
      intro cfg v hwk _
      cases cfg with
      | dict d =>
        simp only [walkV, pySubscript] at hwk
        cases hl : lookupD d k with
        | none => rw [hl] at hwk; simp at hwk
        | some c =>
          rw [hl] at hwk
          simp only at hwk
          have hrec := ih c v hwk (by simp)
          simp only [setStep, hl, hrec]
          simp [insertD_of_lookupD _ _ _ hl]
      | null => simp [walkV, pySubscript] at hwk
      | bool b => simp [walkV, pySubscript] at hwk
      | int n => simp [walkV, pySubscript] at hwk
      | float lit => simp [walkV, pySubscript] at hwk
      | str s => simp [walkV, pySubscript] at hwk
      | list l => simp [walkV, pySubscript] at hwk

theorem convertEnvValue_not_dict (s : String) :
    (ConfigManager.convertEnvValue s).isDict = false := by
  unfold ConfigManager.convertEnvValue
  split
  · rfl
  · split
    · rfl
    · split <;> rfl

theorem st_scalar_hit (q : List String) : ∀ (cfg w v : Value) (r : List String),
    r ≠ [] → walkV cfg q = some w → w.isDict = false →
    setStep cfg (q ++ r) v = (cfg, some PyErr.typeErr) := by
  induction q with
  | nil =>
    intro cfg w v r hr hwk hd
    simp only [walkV] at hwk
    obtain rfl : cfg = w := Option.some.inj hwk
    simp only [List.nil_append]
    cases r with
    | nil => exact absurd rfl hr
    | cons k rs =>
      cases rs with
      | nil =>
        cases cfg with
        | dict d => simp [Value.isDict] at hd
        | null => simp [setStep]
        | bool b => simp [setStep]
        | int n => simp [setStep]
        | float lit => simp [setStep]
        | str s => simp [setStep]
        | list l => simp [setStep]
      | cons k₂ rs' =>
        cases cfg with
        | dict d => simp [Value.isDict] at hd
        | null => simp [setStep]
        | bool b => simp [setStep]
        | int n => simp [setStep]
        | float lit => simp [setStep]
        | str s => simp [setStep]
        | list l => simp [setStep]
  | cons k q' ih =>
    intro cfg w v r hr hwk hd
    cases cfg with
    | dict d =>
      simp only [walkV, pySubscript] at hwk
      cases hl : lookupD d k with
      | none => rw [hl] at hwk; simp at hwk
      | some c =>
        rw [hl] at hwk
        simp only at hwk
        have hrec := ih c w v r hr hwk hd
        have happ : (k :: q') ++ r = k :: (q' ++ r) := rfl
        rw [happ]
        cases hqr : q' ++ r with
        | nil =>
          rcases List.append_eq_nil.mp hqr with ⟨_, h2⟩
          exact absurd h2 hr
        | cons k₂ ks =>
          rw [hqr] at hrec
          simp only [setStep, hl, hrec]
          simp [insertD_of_lookupD _ _ _ hl]
    | null => simp [walkV, pySubscript] at hwk
    | bool b => simp [walkV, pySubscript] at hwk
    | int n => simp [walkV, pySubscript] at hwk
    | float lit => simp [walkV, pySubscript] at hwk
    | str s => simp [walkV, pySubscript] at hwk
    | list l => simp [walkV, pySubscript] at hwk

theorem st_top_shape (d : List (String × Value)) (q : String) (qs : List String) (v : Value) :
    ∃ d₂, (setStep (Value.dict d) (q :: qs) v).1 = Value.dict d₂ ∧
      ∀ k, k ≠ q → lookupD d₂ k = lookupD d k := by
  cases qs with
  | nil =>
    exact ⟨insertD d q v, rfl, fun k hk => lookupD_insertD_ne d q v k hk⟩
  | cons q₂ qs' =>
    cases hl : lookupD d q with
    | some c =>
      refine ⟨insertD d q (setStep c (q₂ :: qs') v).1, ?_, ?_⟩
      · simp [setStep, hl]
      · intro k hk
        exact lookupD_insertD_ne d q _ k hk
    | none =>
      refine ⟨insertD d q (setStep (Value.dict []) (q₂ :: qs') v).1, ?_, ?_⟩
      · simp [setStep, hl]
      · intro k hk
        exact lookupD_insertD_ne d q _ k hk

theorem fresh_writable (q : List String) : ∀ (v : Value) (p : List String),
    v.isDict = false → pathPre q p = false →
    writableB ((setStep (Value.dict []) q v).1) p = true := by
  induction q with
  | nil => intro v p _ _; simp [setStep, writableB_empty]
  | cons k ks ih =>
    cases ks with
    | nil =>
      intro v p hd hpre
      simp only [setStep]
      cases p with
      | nil => rfl
      | cons p₁ ps =>
        cases ps with
        | nil => simp [writableB, Value.isDict, insertD]
        | cons p₂ ps' =>
          have hk : ¬(k = p₁) := by
            intro he
            subst he
            simp [pathPre] at hpre
          simp [writableB, insertD, lookupD, hk]
    | cons k₂ ks' =>
      intro v p hd hpre
      have hshape : (setStep (Value.dict []) (k :: k₂ :: ks') v).1 =
          Value.dict [(k, (setStep (Value.dict []) (k₂ :: ks') v).1)] := by
        simp [setStep, lookupD, insertD]
      rw [hshape]
      cases p with
      | nil => rfl
      | cons p₁ ps =>
        cases ps with
        | nil => simp [writableB, Value.isDict]
        | cons p₂ ps' =>
          by_cases hk : k = p₁
          · subst hk
            rw [pathPre_cons_self] at hpre
            have := ih v (p₂ :: ps') hd hpre
            simp [writableB, lookupD, this]
          · simp [writableB, lookupD, hk]

theorem writable_pres (q : List String) : ∀ (cfg v t : Value) (p : List String),
    setStep cfg q v = (t, none) → v.isDict = false → pathPre q p = false →
    writableB cfg p = true → writableB t p = true := by
  induction q with
  | nil => intro cfg v t p h _ _ _; simp [setStep] at h
  | cons k ks ih =>
    cases ks with
    | nil =>
      intro cfg v t p h hd hpre hw
      cases cfg with
      | dict d =>
        simp only [setStep] at h
        injection h with h1 h2
        subst h1
        cases p with
        | nil => rfl
        | cons p₁ ps =>
          cases ps with
          | nil => simp [writableB, Value.isDict]
          | cons p₂ ps' =>
            have hk : ¬(k = p₁) := by
              intro he
              subst he
              simp [pathPre] at hpre
            simp only [writableB, lookupD_insertD_ne d k v p₁ (fun e => hk e.symm)]
            simp only [writableB] at hw
            exact hw
      | null => simp [setStep] at h
      | bool b => simp [setStep] at h
      | int n => simp [setStep] at h
      | float lit => simp [setStep] at h
      | str s => simp [setStep] at h
      | list l => simp [setStep] at h
    | cons k₂ ks' =>
      intro cfg v t p h hd hpre hw
      cases cfg with
      | dict d =>
        cases hl : lookupD d k with
        | some c =>
          simp only [setStep, hl] at h
          cases hs : setStep c (k₂ :: ks') v with
          | mk t' e' =>
            rw [hs] at h
            dsimp only at h
            injection h with h1 h2
            subst h1
            subst h2
            cases p with
            | nil => rfl
            | cons p₁ ps =>
              cases ps with
              | nil => simp [writableB, Value.isDict]
              | cons p₂ ps' =>
                by_cases hk : k = p₁
                · subst hk
                  rw [pathPre_cons_self] at hpre
                  simp only [writableB, hl] at hw
                  have := ih c v t' (p₂ :: ps') hs hd hpre hw
                  simp only [writableB, lookupD_insertD_self, this]
                · simp only [writableB, lookupD_insertD_ne d k t' p₁ (fun e => hk e.symm)]
                  simp only [writableB] at hw
                  exact hw
        | none =>
          simp only [setStep, hl] at h
          cases hs : setStep (Value.dict []) (k₂ :: ks') v with
          | mk t' e' =>
            rw [hs] at h
            dsimp only at h
            injection h with h1 h2
            subst h1
            subst h2
            cases p with
            | nil => rfl
            | cons p₁ ps =>
              cases ps with
              | nil => simp [writableB, Value.isDict]
              | cons p₂ ps' =>
                by_cases hk : k = p₁
                · subst hk
                  rw [pathPre_cons_self] at hpre
                  have hfresh := fresh_writable (k₂ :: ks') v (p₂ :: ps') hd hpre
                  rw [hs] at hfresh
                  dsimp only at hfresh
                  simp only [writableB, lookupD_insertD_self, hfresh]
                · simp only [writableB, lookupD_insertD_ne d k t' p₁ (fun e => hk e.symm)]
                  simp only [writableB] at hw
                  exact hw
      | null => simp [setStep] at h
      | bool b => simp [setStep] at h
      | int n => simp [setStep] at h
      | float lit => simp [setStep] at h
      | str s => simp [setStep] at h
      | list l => simp [setStep] at h

/-! ### The override fold -/

theorem splitDot_ne_nil (s : String) : splitDot s ≠ [] := by
  unfold splitDot
  intro h
  rw [List.map_eq_nil_iff] at h
  exact List.splitOnP_ne_nil _ s.toList h

theorem setNested_eq_some (cfg : Value) (p : List String) (v t : Value)
    (h : setNested cfg p v = some t) : setStep cfg p v = (t, none) := by
  unfold setNested at h
  cases hq : setStep cfg p v with
  | mk t' e' =>
    rw [hq] at h
    cases e' with
    | none =>
      simp only [Option.some.injEq] at h
      rw [← h]
    | some er => simp at h

theorem overridesFold_pres (l : List (String × List String)) :
    ∀ (cfg : Value) (env : List (String × String)) (t : Value) (p : List String),
    overridesFold l cfg env = some t → (l.all fun e => pathsIndep p e.2) = true →
    walkV t p = walkV cfg p := by
  induction l with
  | nil =>
    intro cfg env t p h _
    simp only [overridesFold, Option.some.injEq] at h
    rw [h]
  | cons e rest ih =>
    obtain ⟨ek, pe⟩ := e
    intro cfg env t p h hall
    simp only [List.all_cons, Bool.and_eq_true] at hall
    simp only [overridesFold] at h
    cases hg : envGet env ek with
    | none =>
      simp only [hg] at h
      exact ih cfg env t p h hall.2
    | some s =>
      simp only [hg] at h
      cases hs : setNested cfg pe (ConfigManager.convertEnvValue s) with
      | none => simp only [hs] at h; exact Option.noConfusion h
      | some cfg₂ =>
        simp only [hs] at h
        have h2 := ih cfg₂ env t p h hall.2
        have hstep := setNested_eq_some cfg pe (ConfigManager.convertEnvValue s) cfg₂ hs
        rw [h2, st_indep pe cfg (ConfigManager.convertEnvValue s) cfg₂ p hstep hall.1]

theorem overridesFold_sets (l : List (String × List String)) :
    ∀ (cfg : Value) (env : List (String × String)) (t : Value),
    entriesIndep l = true → overridesFold l cfg env = some t →
    ∀ ek p s, (ek, p) ∈ l → envGet env ek = some s →
    walkV t p = some (ConfigManager.convertEnvValue s) := by
  induction l with
  | nil => intro cfg env t _ _ ek p s hmem _; simp at hmem
  | cons e rest ih =>
    obtain ⟨ek₀, p₀⟩ := e
    intro cfg env t hind hfold ek p s hmem hg
    simp only [entriesIndep, Bool.and_eq_true] at hind
    simp only [overridesFold] at hfold
    rcases List.mem_cons.mp hmem with hhd | htl
    · injection hhd with he hp
      subst he
      subst hp
      simp only [hg] at hfold
      cases hs : setNested cfg p (ConfigManager.convertEnvValue s) with
      | none => simp only [hs] at hfold; exact Option.noConfusion hfold
      | some cfg₂ =>
        simp only [hs] at hfold
        have hstep := setNested_eq_some cfg p (ConfigManager.convertEnvValue s) cfg₂ hs
        have hwv := st_walk_self p cfg (ConfigManager.convertEnvValue s) cfg₂ hstep
        rw [overridesFold_pres rest cfg₂ env t p hfold hind.1, hwv]
    · cases hg₀ : envGet env ek₀ with
      | none =>
        simp only [hg₀] at hfold
        exact ih cfg env t hind.2 hfold ek p s htl hg
      | some s₀ =>
        simp only [hg₀] at hfold
        cases hs : setNested cfg p₀ (ConfigManager.convertEnvValue s₀) with
        | none => simp only [hs] at hfold; exact Option.noConfusion hfold
        | some cfg₂ =>
          simp only [hs] at hfold
          exact ih cfg₂ env t hind.2 hfold ek p s htl hg

theorem overridesFold_total (l : List (String × List String)) :
    ∀ (cfg : Value) (env : List (String × String)),
    entriesIndep l = true → (∀ e ∈ l, e.2 ≠ [] ∧ writableB cfg e.2 = true) →
    ∃ t, overridesFold l cfg env = some t := by
  induction l with
  | nil => intro cfg env _ _; exact ⟨cfg, rfl⟩
  | cons e rest ih =>
    obtain ⟨ek₀, p₀⟩ := e
    intro cfg env hind hwr
    simp only [entriesIndep, Bool.and_eq_true] at hind
    obtain ⟨hne₀, hw₀⟩ := hwr (ek₀, p₀) (List.mem_cons_self _ _)
    simp only [overridesFold]
    cases hg : envGet env ek₀ with
    | none => exact ih cfg env hind.2 (fun e he => hwr e (List.mem_cons_of_mem _ he))
    | some s =>
      have h2 := st_total p₀ cfg (ConfigManager.convertEnvValue s) hw₀ hne₀
      cases hq : setStep cfg p₀ (ConfigManager.convertEnvValue s) with
      | mk t' e' =>
        rw [hq] at h2
        dsimp only at h2
        subst h2
        have hsn : setNested cfg p₀ (ConfigManager.convertEnvValue s) = some t' := by
          simp [setNested, hq]
        simp only [hsn]
        apply ih t' env hind.2
        intro e he
        obtain ⟨hne, hw⟩ := hwr e (List.mem_cons_of_mem _ he)
        refine ⟨hne, ?_⟩
        have hpind : pathsIndep p₀ e.2 = true := List.all_eq_true.mp hind.1 e he
        simp only [pathsIndep, Bool.and_eq_true, Bool.not_eq_true'] at hpind
        exact writable_pres p₀ cfg (ConfigManager.convertEnvValue s) t' e.2 hq
          (convertEnvValue_not_dict s) hpind.1 hw

theorem overridesFold_no_new_top (l : List (String × List String)) :
    ∀ (d : List (String × Value)) (env : List (String × String)) (t : Value) (k : String),
    overridesFold l (Value.dict d) env = some t → lookupD d k = none →
    (∀ e ∈ l, envGet env e.1 ≠ none → e.2.head? ≠ some k) →
    ∃ d', t = Value.dict d' ∧ lookupD d' k = none := by
  induction l with
  | nil =>
    intro d env t k h hlk _
    simp only [overridesFold, Option.some.injEq] at h
    exact ⟨d, h.symm, hlk⟩
  | cons e rest ih =>
    obtain ⟨ek₀, p₀⟩ := e
    intro d env t k h hlk hhd
    simp only [overridesFold] at h
    cases hg : envGet env ek₀ with
    | none =>
      simp only [hg] at h
      exact ih d env t k h hlk (fun e he hne => hhd e (List.mem_cons_of_mem _ he) hne)
    | some s₀ =>
      simp only [hg] at h
      cases p₀ with
      | nil =>
        simp [setNested, setStep] at h
      | cons q qs =>
        cases hs : setNested (Value.dict d) (q :: qs) (ConfigManager.convertEnvValue s₀) with
        | none => simp only [hs] at h; exact Option.noConfusion h
        | some cfg₂ =>
          simp only [hs] at h
          have hstep := setNested_eq_some _ _ _ _ hs
          obtain ⟨d₂, hshape, hpres⟩ := st_top_shape d q qs (ConfigManager.convertEnvValue s₀)
          rw [hstep] at hshape
          dsimp only at hshape
          have hqk : k ≠ q := by
            intro hkq
            subst hkq
            exact hhd (ek₀, k :: qs) (List.mem_cons_self _ _) (by simp [hg]) rfl
          have hlk₂ : lookupD d₂ k = none := by rw [hpres k hqk]; exact hlk
          rw [hshape] at h
          exact ih d₂ env t k h hlk₂ (fun e he hne => hhd e (List.mem_cons_of_mem _ he) hne)

theorem overridesFold_fix (l : List (String × List String)) :
    ∀ (cfg : Value) (env : List (String × String)),
    (∀ e ∈ l, e.2 ≠ []) →
    (∀ ek p, (ek, p) ∈ l → ∀ s, envGet env ek = some s →
      walkV cfg p = some (ConfigManager.convertEnvValue s)) →
    overridesFold l cfg env = some cfg := by
  induction l with
  | nil => intro cfg env _ _; rfl
  | cons e rest ih =>
    obtain ⟨ek₀, p₀⟩ := e
    intro cfg env hne hcons
    simp only [overridesFold]
    cases hg : envGet env ek₀ with
    | none =>
      exact ih cfg env (fun e he => hne e (List.mem_cons_of_mem _ he))
        (fun ek p hm s hs => hcons ek p (List.mem_cons_of_mem _ hm) s hs)
    | some s₀ =>
      have hwv := hcons ek₀ p₀ (List.mem_cons_self _ _) s₀ hg
      have hfix := st_fix p₀ cfg (ConfigManager.convertEnvValue s₀) hwv
        (hne (ek₀, p₀) (List.mem_cons_self _ _))
      have hsn : setNested cfg p₀ (ConfigManager.convertEnvValue s₀) = some cfg := by
        simp [setNested, hfix]
      simp only [hsn]
      exact ih cfg env (fun e he => hne e (List.mem_cons_of_mem _ he))
        (fun ek p hm s hs => hcons ek p (List.mem_cons_of_mem _ hm) s hs)

theorem envMappings_indep : entriesIndep envMappings = true := by decide

theorem envMappings_paths_nonempty : ∀ e ∈ envMappings, e.2 ≠ [] := by decide

/-! ### Default-profile application -/

theorem applyDefaults_contains_mono (l : List (String × Value)) :
    ∀ (cfg t : Value) (k : String), applyDefaultsFold l cfg = some t →
    pyContains cfg k = some true → pyContains t k = some true := by
  induction l with
  | nil =>
    intro cfg t k h hc
    simp only [applyDefaultsFold, Option.some.injEq] at h
    rw [← h]
    exact hc
  | cons e rest ih =>
    obtain ⟨k₀, v₀⟩ := e
    intro cfg t k h hc
    simp only [applyDefaultsFold] at h
    cases hc₀ : pyContains cfg k₀ with
    | none => simp only [hc₀] at h; exact Option.noConfusion h
    | some b =>
      cases b with
      | true =>
        simp only [hc₀] at h
        exact ih cfg t k h hc
      | false =>
        simp only [hc₀] at h
        cases cfg with
        | dict d =>
          apply ih (Value.dict (insertD d k₀ v₀)) t k h
          simp only [pyContains, Option.some.injEq] at hc
          by_cases hk : k = k₀
          · subst hk
            simp [pyContains, lookupD_insertD_self]
          · simp [pyContains, lookupD_insertD_ne d k₀ v₀ k hk, hc]
        | null => exact Option.noConfusion h
        | bool b => exact Option.noConfusion h
        | int n => exact Option.noConfusion h
        | float lit => exact Option.noConfusion h
        | str s => exact Option.noConfusion h
        | list el => exact Option.noConfusion h

theorem applyDefaults_keys (l : List (String × Value)) :
    ∀ (cfg t : Value), applyDefaultsFold l cfg = some t →
    ∀ k, k ∈ l.map Prod.fst → pyContains t k = some true := by
  induction l with
  | nil => intro cfg t _ k hk; simp at hk
  | cons e rest ih =>
    obtain ⟨k₀, v₀⟩ := e
    intro cfg t h k hk
    simp only [List.map_cons, List.mem_cons] at hk
    simp only [applyDefaultsFold] at h
    cases hc₀ : pyContains cfg k₀ with
    | none => simp only [hc₀] at h; exact Option.noConfusion h
    | some b =>
      cases b with
      | true =>
        simp only [hc₀] at h
        rcases hk with rfl | hk
        · exact applyDefaults_contains_mono rest cfg t k h hc₀
        · exact ih cfg t h k hk
      | false =>
        simp only [hc₀] at h
        cases cfg with
        | dict d =>
          rcases hk with rfl | hk
          · apply applyDefaults_contains_mono rest (Value.dict (insertD d k v₀)) t k h
            simp [pyContains, lookupD_insertD_self]
          · exact ih (Value.dict (insertD d k₀ v₀)) t h k hk
        | null => exact Option.noConfusion h
        | bool b => exact Option.noConfusion h
        | int n => exact Option.noConfusion h
        | float lit => exact Option.noConfusion h
        | str s => exact Option.noConfusion h
        | list el => exact Option.noConfusion h

theorem applyDefaults_pres (l : List (String × Value)) :
    ∀ (d : List (String × Value)) (t : Value), applyDefaultsFold l (Value.dict d) = some t →
    ∃ d', t = Value.dict d' ∧ ∀ k v, lookupD d k = some v → lookupD d' k = some v := by
  induction l with
  | nil =>
    intro d t h
    simp only [applyDefaultsFold, Option.some.injEq] at h
    exact ⟨d, h.symm, fun _ _ hv => hv⟩
  | cons e rest ih =>
    obtain ⟨k₀, v₀⟩ := e
    intro d t h
    simp only [applyDefaultsFold] at h
    cases hc₀ : pyContains (Value.dict d) k₀ with
    | none => simp [pyContains] at hc₀
    | some b =>
      cases b with
      | true =>
        simp only [hc₀] at h
        exact ih d t h
      | false =>
        simp only [hc₀] at h
        simp only [pyContains, Option.some.injEq] at hc₀
        have hlk0 : lookupD d k₀ = none := by
          cases hlo : lookupD d k₀ with
          | none => rfl
          | some w => rw [hlo] at hc₀; simp at hc₀
        obtain ⟨d', ht, hpres⟩ := ih (insertD d k₀ v₀) t h
        refine ⟨d', ht, fun k v hkv => ?_⟩
        have hk : k ≠ k₀ := by
          intro he
          rw [he, hlk0] at hkv
          exact Option.noConfusion hkv
        exact hpres k v (by rw [lookupD_insertD_ne d k₀ v₀ k hk]; exact hkv)

/-! ### Claim theorems -/

/-- C4: value coercion is total and follows the fixed precedence — a
case-insensitive match of `true`/`false` becomes a boolean, otherwise a
string accepted by Python `int` becomes that integer, otherwise a string
accepted by Python `float` becomes a float, otherwise the original string is
returned unmodified.  Totality is by construction (`convertEnvValue` is a
total function); locale formats such as `"1,000"` fail both number parsers
and fall through to the string case. -/
theorem c4_coercion_precedence (s : String) :
    (strLower s = "true" → ConfigManager.convertEnvValue s = Value.bool true) ∧
    (strLower s = "false" → ConfigManager.convertEnvValue s = Value.bool false) ∧
    (strLower s ≠ "true" → strLower s ≠ "false" →
      (∀ n, pyIntParse s = some n → ConfigManager.convertEnvValue s = Value.int n) ∧
      (pyIntParse s = none → pyFloatOk s = true → ConfigManager.convertEnvValue s = Value.float s) ∧
      (pyIntParse s = none → pyFloatOk s = false → ConfigManager.convertEnvValue s = Value.str s)) := by
  refine ⟨?_, ?_, ?_⟩
  · intro h
    unfold ConfigManager.convertEnvValue
    rw [h]
    rfl
  · intro h
    unfold ConfigManager.convertEnvValue
    rw [h]
    rfl
  · intro h1 h2
    refine ⟨?_, ?_, ?_⟩
    · intro n hn
      simp [ConfigManager.convertEnvValue, h1, h2, hn]
    · intro hn hf
      simp [ConfigManager.convertEnvValue, h1, h2, hn, hf]
    · intro hn hf
      simp [ConfigManager.convertEnvValue, h1, h2, hn, hf]

/-- Witness for C4 at concrete inputs: the boolean case is case-insensitive,
`"8883"` coerces to an integer, `"3.5"` to a float, and the
thousands-separator string `"1,000"` stays a string. -/
theorem c4_coercion_precedence_witness :
    ConfigManager.convertEnvValue "TRUE" = Value.bool true ∧
    ConfigManager.convertEnvValue "8883" = Value.int 8883 ∧
    ConfigManager.convertEnvValue "3.5" = Value.float "3.5" ∧
    ConfigManager.convertEnvValue "1,000" = Value.str "1,000" := by
  refine ⟨?_, ?_, ?_, ?_⟩
  · exact (c4_coercion_precedence "TRUE").1 (by decide)
  · exact ((c4_coercion_precedence "8883").2.2 (by decide) (by decide)).1 8883 (by decide)
  · exact ((c4_coercion_precedence "3.5").2.2 (by decide) (by decide)).2.1 (by decide) (by decide)
  · exact ((c4_coercion_precedence "1,000").2.2 (by decide) (by decide)).2.2 (by decide) (by decide)

/-- C6: `get` is a total function of the tree, the dot-path and the default —
no exception escapes it — and it returns the caller-supplied default exactly
when the walk finds nothing (missing key, empty-string path that is absent,
or a non-mapping intermediate); when the walk finds a value it returns it. -/
theorem c6_get_never_raises (cfg : Value) (key : String) (dflt : Value) :
    (walkV cfg (splitDot key) = none → ConfigManager.get cfg key dflt = dflt) ∧
    (∀ v, walkV cfg (splitDot key) = some v → ConfigManager.get cfg key dflt = v) := by
  constructor
  · intro h
    simp [ConfigManager.get, h]
  · intro v h
    simp [ConfigManager.get, h]

/-- Witness for C6: the empty-string path, a path through a scalar, and a
missing path all return the supplied default on a concrete tree. -/
theorem c6_get_never_raises_witness :
    ConfigManager.get (Value.dict [("a", Value.int 1)]) "" (Value.int 7) = Value.int 7 ∧
    ConfigManager.get (Value.dict [("a", Value.int 1)]) "a.b" (Value.int 7) = Value.int 7 ∧
    ConfigManager.get (Value.dict [("a", Value.int 1)]) "missing.x" (Value.int 7) = Value.int 7 := by
  refine ⟨?_, ?_, ?_⟩
  · exact (c6_get_never_raises _ "" _).1 (by rfl)
  · exact (c6_get_never_raises _ "a.b" _).1 (by rfl)
  · exact (c6_get_never_raises _ "missing.x" _).1 (by rfl)

/-- C9: on a path whose intermediate segments are each absent or mappings,
`set` succeeds (raises nothing) and a following `get` of the same path
returns exactly the written value; `set` is a pure tree transformation in
this embedding — it performs no file I/O and no validation. -/
theorem c9_set_then_get (cfg : Value) (key : String) (v dflt : Value)
    (hw : writableB cfg (splitDot key) = true) :
    (ConfigManager.set cfg key v).2 = none ∧
    ConfigManager.get (ConfigManager.set cfg key v).1 key dflt = v := by
  have h2 := st_total (splitDot key) cfg v hw (splitDot_ne_nil key)
  constructor
  · exact h2
  · unfold ConfigManager.set ConfigManager.get
    cases hq : setStep cfg (splitDot key) v with
    | mk t e =>
      have he : e = none := by rw [hq] at h2; exact h2
      subst he
      have hwk := st_walk_self (splitDot key) cfg v t hq
      simp [hq, hwk]

/-- Witness for C9: `set("dashboard.port", 9090)` on the empty tree succeeds
and `get("dashboard.port")` returns `9090`. -/
theorem c9_set_then_get_witness :
    (ConfigManager.set (Value.dict []) "dashboard.port" (Value.int 9090)).2 = none ∧
    ConfigManager.get (ConfigManager.set (Value.dict []) "dashboard.port" (Value.int 9090)).1
      "dashboard.port" Value.null = Value.int 9090 :=
  c9_set_then_get (Value.dict []) "dashboard.port" (Value.int 9090) Value.null
    (by decide)

/-- C10: when some segment of the written path before the last (or the
container of the last segment) already holds a non-mapping value, `set`
raises `TypeError` and the tree is returned unchanged — no partial mutation
survives the failed write. -/
theorem c10_set_scalar_typeerror (cfg : Value) (key : String) (v : Value)
    (q r : List String) (w : Value)
    (hsplit : splitDot key = q ++ r) (hr : r ≠ [])
    (hwalk : walkV cfg q = some w) (hd : w.isDict = false) :
    ConfigManager.set cfg key v = (cfg, some PyErr.typeErr) := by
  unfold ConfigManager.set
  rw [hsplit]
  exact st_scalar_hit q cfg w v r hr hwalk hd

/-- Witness for C10: writing `mqtt.host.sub` when `mqtt.host` is a string
raises `TypeError` and leaves the tree exactly as it was. -/
theorem c10_set_scalar_typeerror_witness :
    ConfigManager.set (Value.dict [("mqtt", Value.dict [("host", Value.str "10.0.0.5")])])
      "mqtt.host.sub" (Value.int 1)
      = (Value.dict [("mqtt", Value.dict [("host", Value.str "10.0.0.5")])], some PyErr.typeErr) :=
  c10_set_scalar_typeerror _ "mqtt.host.sub" _ ["mqtt", "host"] ["sub"] (Value.str "10.0.0.5")
    (by decide) (by decide) (by rfl) (by rfl)

/-- Counterexample to C2 as stated: a client store built from a missing file
and an empty environment holds the profile default `sensor_pin = 4`, but
after `reload()` the tree is empty and `get("sensor_pin")` falls back to the
caller default — `reload` does not re-apply the Default Profile. -/
theorem c2_counterexample :
    ClientConfigManager.construct FileState.missing [] = some (Value.dict DEFAULT_CLIENT_CONFIG) ∧
    ConfigManager.get (Value.dict DEFAULT_CLIENT_CONFIG) "sensor_pin" Value.null = Value.int 4 ∧
    ConfigManager.reload FileState.missing [] = some (Value.dict []) ∧
    ConfigManager.get (Value.dict []) "sensor_pin" Value.null = Value.null := by
  refine ⟨?_, ?_, ?_, ?_⟩ <;> rfl

/-- C2 (amended): `reload` re-executes source resolution against the file
state and a fresh environment snapshot and swaps in the resulting tree, but
does not re-apply the Default Profile: any top-level key absent from the
loaded file that is not the head of an override path with a set variable is
absent after `reload()` — profile defaults are not restored. -/
theorem c2_reload_drops_defaults (fs : FileState) (env : List (String × String))
    (t : Value) (d : List (String × Value)) (k : String)
    (hrel : ConfigManager.reload fs env = some t)
    (hbase : fileBase fs = Value.dict d)
    (habs : lookupD d k = none)
    (hhd : ∀ e ∈ envMappings, envGet env e.1 ≠ none → e.2.head? ≠ some k) :
    ∃ d', t = Value.dict d' ∧ lookupD d' k = none := by
  cases fs with
  | malformed => exact Option.noConfusion hrel
  | missing =>
    have hrel' : overridesFold envMappings (fileBase FileState.missing) env = some t := hrel
    rw [hbase] at hrel'
    exact overridesFold_no_new_top envMappings d env t k hrel' habs hhd
  | parsed v =>
    have hrel' : overridesFold envMappings (fileBase (FileState.parsed v)) env = some t := hrel
    rw [hbase] at hrel'
    exact overridesFold_no_new_top envMappings d env t k hrel' habs hhd

/-- Witness for the amended C2: reloading with a missing file and empty
environment leaves `sensor_pin` absent. -/
theorem c2_reload_drops_defaults_witness :
    ∃ d', (Value.dict [] : Value) = Value.dict d' ∧ lookupD d' "sensor_pin" = none :=
  c2_reload_drops_defaults FileState.missing [] (Value.dict []) [] "sensor_pin"
    (by rfl) (by rfl) (by rfl) (by decide)

/-- Counterexample to C7 as stated: the file parses fine (`mqtt: 5` is valid
YAML), yet construction fails, because the `MQTT_HOST` override writes
through the non-mapping value at `mqtt` and the raised `TypeError`
propagates out of `_load_config` — so "fails iff the file is malformed" is
too strong. -/
theorem c7_counterexample :
    ConfigManager.loadConfig (FileState.parsed (Value.dict [("mqtt", Value.int 5)]))
      [("MQTT_HOST", "broker.local")] = none := by
  rfl

/-- C7 (amended): a malformed file always propagates a load error, and a
genuinely missing file is always non-fatal — resolution continues from the
empty tree and the override writes cannot fail there; but with a parsed
file, construction can additionally fail when an override path meets an
existing non-mapping value (see the counterexample). -/
theorem c7_load_error_amended :
    (∀ env, ConfigManager.loadConfig FileState.malformed env = none) ∧
    (∀ env, ∃ t, ConfigManager.loadConfig FileState.missing env = some t) := by
  constructor
  · intro env
    rfl
  · intro env
    exact overridesFold_total envMappings (Value.dict []) env envMappings_indep
      (fun e he => ⟨envMappings_paths_nonempty e he, writableB_empty e.2⟩)

/-- Counterexample to C8 as stated: construct a client store with
`MQTT_PORT=8883`, then `set("mqtt.port", 1234)`; saving and reloading with
the unchanged environment re-applies the override, so the key `mqtt.port`
that held `1234` before `save` holds `8883` after — round-trip equality
fails at override paths. -/
theorem c8_counterexample :
    (ConfigManager.set
      ((ClientConfigManager.construct FileState.missing [("MQTT_PORT", "8883")]).getD Value.null)
      "mqtt.port" (Value.int 1234)).2 = none ∧
    ConfigManager.get
      ((ConfigManager.set
        ((ClientConfigManager.construct FileState.missing [("MQTT_PORT", "8883")]).getD Value.null)
        "mqtt.port" (Value.int 1234)).1)
      "mqtt.port" Value.null = Value.int 1234 ∧
    ConfigManager.get
      ((ConfigManager.reload
        (FileState.parsed
          ((ConfigManager.set
            ((ClientConfigManager.construct FileState.missing [("MQTT_PORT", "8883")]).getD Value.null)
            "mqtt.port" (Value.int 1234)).1))
        [("MQTT_PORT", "8883")]).getD Value.null)
      "mqtt.port" Value.null = Value.int 8883 ∧
    Value.int 8883 ≠ Value.int 1234 := by
  refine ⟨rfl, rfl, rfl, ?_⟩
  intro h
  injection h with h1
  exact absurd h1 (by decide)

/-- C8 (amended): when every override path with a set variable already holds
the coerced value of that variable — true of a freshly resolved tree, but
breakable by runtime `set` — reloading the saved tree returns it unchanged,
and a fresh client construction from the saved tree keeps every key of the
saved tree with its value (the profile only fills absent keys). -/
theorem c8_roundtrip_amended (d : List (String × Value)) (env : List (String × String))
    (hcons : envConsistent (Value.dict d) env) :
    ConfigManager.reload (FileState.parsed (Value.dict d)) env = some (Value.dict d) ∧
    (∀ t, ClientConfigManager.construct (FileState.parsed (Value.dict d)) env = some t →
      ∀ k v, lookupD d k = some v → ∃ d', t = Value.dict d' ∧ lookupD d' k = some v) := by
  have hfb : fileBase (FileState.parsed (Value.dict d)) = Value.dict d := by
    cases d with
    | nil => rfl
    | cons a as => simp [fileBase, pyTruthy]
  have hfold : overridesFold envMappings (Value.dict d) env = some (Value.dict d) := by
    apply overridesFold_fix
    · exact envMappings_paths_nonempty
    · intro ek p hm s hs
      exact hcons ek p hm s hs
  have hload : ConfigManager.loadConfig (FileState.parsed (Value.dict d)) env
      = some (Value.dict d) := by
    show ConfigManager.applyEnvOverrides (fileBase (FileState.parsed (Value.dict d))) env
      = some (Value.dict d)
    rw [hfb]
    exact hfold
  constructor
  · exact hload
  · intro t ht k v hkv
    have ht' : applyDefaultsFold DEFAULT_CLIENT_CONFIG (Value.dict d) = some t := by
      unfold ClientConfigManager.construct at ht
      rw [hload] at ht
      exact ht
    obtain ⟨d', htd, hpres⟩ := applyDefaults_pres DEFAULT_CLIENT_CONFIG d t ht'
    exact ⟨d', htd, hpres k v hkv⟩

theorem envGet_single (a b ek s : String) (h : envGet [(a, b)] ek = some s) :
    ek = a ∧ s = b := by
  simp only [envGet] at h
  by_cases hk : a = ek
  · subst hk
    simp at h
    exact ⟨rfl, h.symm⟩
  · simp [hk] at h

/-- Witness for the amended C8 on a consistent concrete store. -/
theorem c8_roundtrip_amended_witness :
    ConfigManager.reload
      (FileState.parsed (Value.dict [("mqtt", Value.dict [("port", Value.int 8883)])]))
      [("MQTT_PORT", "8883")]
      = some (Value.dict [("mqtt", Value.dict [("port", Value.int 8883)])]) ∧
    (∀ t, ClientConfigManager.construct
        (FileState.parsed (Value.dict [("mqtt", Value.dict [("port", Value.int 8883)])]))
        [("MQTT_PORT", "8883")] = some t →
      ∀ k v, lookupD [("mqtt", Value.dict [("port", Value.int 8883)])] k = some v →
        ∃ d', t = Value.dict d' ∧ lookupD d' k = some v) := by
  apply c8_roundtrip_amended
  intro ek p hm s hs
  obtain ⟨rfl, rfl⟩ := envGet_single "MQTT_PORT" "8883" ek s hs
  have hp : p = ["mqtt", "port"] := by
    have hall : ∀ e ∈ envMappings, e.1 = "MQTT_PORT" → e.2 = ["mqtt", "port"] := by decide
    exact hall ("MQTT_PORT", p) hm rfl
  subst hp
  rfl

/-- C1: for every entry `(envVar, path)` of the fixed override table whose
variable is set in the environment snapshot, after a successful base
resolution (`_load_config`, which `reload` runs) or a successful client or
host construction, the tree stores the coerced value of the variable at
`path`, whatever the file specified there, and `get` of the dotted path
returns it for any default. -/
theorem c1_env_overrides_take_precedence (fs : FileState) (env : List (String × String))
    (t : Value) (ek : String) (p : List String) (s : String)
    (hmem : (ek, p) ∈ envMappings) (hs : envGet env ek = some s)
    (ht : ConfigManager.loadConfig fs env = some t ∨
          ClientConfigManager.construct fs env = some t ∨
          HostConfigManager.construct fs env = some t) :
    walkV t p = some (ConfigManager.convertEnvValue s) ∧
    ∀ dflt, ConfigManager.get t (String.intercalate "." p) dflt
      = ConfigManager.convertEnvValue s := by
  have hcore : ∀ t₀, ConfigManager.loadConfig fs env = some t₀ →
      walkV t₀ p = some (ConfigManager.convertEnvValue s) := by
    intro t₀ h₀
    cases fs with
    | malformed => exact Option.noConfusion h₀
    | missing =>
      exact overridesFold_sets envMappings (fileBase FileState.missing) env t₀
        envMappings_indep h₀ ek p s hmem hs
    | parsed v =>
      exact overridesFold_sets envMappings (fileBase (FileState.parsed v)) env t₀
        envMappings_indep h₀ ek p s hmem hs
  have hpne : p ≠ [] := envMappings_paths_nonempty (ek, p) hmem
  have hlift : ∀ (profile : List (String × Value)) (t₀ : Value),
      (ConfigManager.loadConfig fs env).bind (applyDefaultsFold profile) = some t₀ →
      walkV t₀ p = some (ConfigManager.convertEnvValue s) := by
    intro profile t₀ h
    cases hl : ConfigManager.loadConfig fs env with
    | none => rw [hl] at h; exact Option.noConfusion h
    | some base =>
      rw [hl] at h
      have h' : applyDefaultsFold profile base = some t₀ := h
      have hbase := hcore base hl
      cases p with
      | nil => exact absurd rfl hpne
      | cons k rest =>
        cases base with
        | dict dbase =>
          obtain ⟨d', htd, hpres⟩ := applyDefaults_pres profile dbase t₀ h'
          subst htd
          simp only [walkV, pySubscript] at hbase ⊢
          cases hlk : lookupD dbase k with
          | none =>
            simp only [hlk] at hbase
            exact Option.noConfusion hbase
          | some c =>
            simp only [hlk] at hbase
            simp only [hpres k c hlk]
            exact hbase
        | null => simp [walkV, pySubscript] at hbase
        | bool b => simp [walkV, pySubscript] at hbase
        | int n => simp [walkV, pySubscript] at hbase
        | float lit => simp [walkV, pySubscript] at hbase
        | str sv => simp [walkV, pySubscript] at hbase
        | list l => simp [walkV, pySubscript] at hbase
  have hw : walkV t p = some (ConfigManager.convertEnvValue s) := by
    rcases ht with h | h | h
    · exact hcore t h
    · exact hlift DEFAULT_CLIENT_CONFIG t h
    · exact hlift DEFAULT_HOST_CONFIG t h
  refine ⟨hw, ?_⟩
  have hsplit : splitDot (String.intercalate "." p) = p := by
    have hall : ∀ e ∈ envMappings, splitDot (String.intercalate "." e.2) = e.2 := by decide
    exact hall (ek, p) hmem
  intro dflt
  unfold ConfigManager.get
  rw [hsplit, hw]
  rfl

/-- Witness for C1: with only `MQTT_PORT=8883` set and a missing file, base
resolution yields a tree whose `get("mqtt.port")` is the integer `8883`. -/
theorem c1_env_overrides_take_precedence_witness :
    ConfigManager.get (Value.dict [("mqtt", Value.dict [("port", Value.int 8883)])])
      "mqtt.port" Value.null = Value.int 8883 :=
  (c1_env_overrides_take_precedence FileState.missing [("MQTT_PORT", "8883")]
    (Value.dict [("mqtt", Value.dict [("port", Value.int 8883)])])
    "MQTT_PORT" ["mqtt", "port"] "8883"
    (by decide) (by rfl) (Or.inl (by rfl))).2 Value.null

/-- C3: after a successful client (resp. host) construction, every top-level
key of the active profile's default table is present in the tree, and the
default fill-in never overwrites a key that already had a value after
file/env resolution. -/
theorem c3_defaults_fill_without_overwrite (fs : FileState) (env : List (String × String)) :
    (∀ t, ClientConfigManager.construct fs env = some t →
      (∀ k, k ∈ DEFAULT_CLIENT_CONFIG.map Prod.fst → pyContains t k = some true) ∧
      (∀ d, ConfigManager.loadConfig fs env = some (Value.dict d) →
        ∀ k v, lookupD d k = some v → ∃ d', t = Value.dict d' ∧ lookupD d' k = some v)) ∧
    (∀ t, HostConfigManager.construct fs env = some t →
      (∀ k, k ∈ DEFAULT_HOST_CONFIG.map Prod.fst → pyContains t k = some true) ∧
      (∀ d, ConfigManager.loadConfig fs env = some (Value.dict d) →
        ∀ k v, lookupD d k = some v → ∃ d', t = Value.dict d' ∧ lookupD d' k = some v)) := by
  have main : ∀ (profile : List (String × Value)) (t : Value),
      (ConfigManager.loadConfig fs env).bind (applyDefaultsFold profile) = some t →
      (∀ k, k ∈ profile.map Prod.fst → pyContains t k = some true) ∧
      (∀ d, ConfigManager.loadConfig fs env = some (Value.dict d) →
        ∀ k v, lookupD d k = some v → ∃ d', t = Value.dict d' ∧ lookupD d' k = some v) := by
    intro profile t h
    cases hl : ConfigManager.loadConfig fs env with
    | none => rw [hl] at h; exact Option.noConfusion h
    | some base =>
      rw [hl] at h
      have h' : applyDefaultsFold profile base = some t := h
      constructor
      · intro k hk
        exact applyDefaults_keys profile base t h' k hk
      · intro d hld k v hkv
        have hbd : base = Value.dict d := Option.some.inj hld
        subst hbd
        obtain ⟨d', htd, hpres⟩ := applyDefaults_pres profile d t h'
        exact ⟨d', htd, hpres k v hkv⟩
  exact ⟨fun t ht => main DEFAULT_CLIENT_CONFIG t ht, fun t ht => main DEFAULT_HOST_CONFIG t ht⟩

/-- Witness for C3: a client store from a missing file and empty
environment has the profile keys `mqtt` and `sensor_pin` present. -/
theorem c3_defaults_fill_without_overwrite_witness :
    pyContains (Value.dict DEFAULT_CLIENT_CONFIG) "mqtt" = some true ∧
    pyContains (Value.dict DEFAULT_CLIENT_CONFIG) "sensor_pin" = some true := by
  have h := (c3_defaults_fill_without_overwrite FileState.missing []).1
    (Value.dict DEFAULT_CLIENT_CONFIG) (by rfl)
  exact ⟨h.1 "mqtt" (by decide), h.1 "sensor_pin" (by decide)⟩

/-! ### Validator lemmas -/

theorem validate_ne_none : ∀ n : Nat,
    (∀ (l : List (String × Schema)) (d : List (String × Value)),
      sizeOf l ≤ n → validateRec (Value.dict d) l ≠ none) ∧
    (∀ (sch : Schema) (k : String) (d : List (String × Value)) (w : Value),
      sizeOf sch ≤ n → lookupD d k = some w → validateEntry (Value.dict d) k sch ≠ none) := by
  intro n
  induction n with
  | zero =>
    constructor
    · intro l d hle
      cases l with
      | nil => simp [validateRec]
      | cons e rest => simp [List.cons.sizeOf_spec] at hle
    · intro sch k d w hle _
      cases sch with
      | ty t => simp [Schema.ty.sizeOf_spec] at hle
      | node fields => simp [Schema.node.sizeOf_spec] at hle
  | succ n ihn =>
    constructor
    · intro l d hle
      cases l with
      | nil => simp [validateRec]
      | cons e rest =>
        obtain ⟨k, sch⟩ := e
        have hsr : sizeOf rest ≤ n := by
          simp [List.cons.sizeOf_spec] at hle
          omega
        have hss : sizeOf sch ≤ n := by
          simp [List.cons.sizeOf_spec, Prod.mk.sizeOf_spec] at hle
          omega
        rw [validateRec]
        cases hlk : lookupD d k with
        | none => simp [pyContains, hlk]
        | some w =>
          simp only [pyContains, hlk, Option.isSome_some, if_true]
          have hent := ihn.2 sch k d w hss hlk
          cases hv : validateEntry (Value.dict d) k sch with
          | none => exact absurd hv hent
          | some b₂ =>
            cases b₂ with
            | false => simp [hv]
            | true =>
              simp only [hv, if_true]
              exact ihn.1 rest d hsr
    · intro sch k d w hle hlk
      cases sch with
      | ty t => simp [validateEntry, pySubscript, hlk]
      | node fields =>
        have hsf : sizeOf fields ≤ n := by
          simp [Schema.node.sizeOf_spec] at hle
          omega
        rw [validateEntry]
        simp only [pySubscript, hlk]
        cases w with
        | dict dw =>
          simp only [Value.isDict, if_true]
          exact ihn.1 fields dw hsf
        | null => simp [Value.isDict]
        | bool b => simp [Value.isDict]
        | int m => simp [Value.isDict]
        | float lit => simp [Value.isDict]
        | str sv => simp [Value.isDict]
        | list el => simp [Value.isDict]

theorem schemaConf_node_iff (fields : List (String × Schema)) (dw : List (String × Value)) :
    SchemaConf (.node fields) (Value.dict dw) ↔
    ∀ k sch, (k, sch) ∈ fields → ∃ w, lookupD dw k = some w ∧ SchemaConf sch w := by
  constructor
  · intro h
    cases h with
    | node _ _ hsome hrec =>
      intro k sch hm
      cases hw : lookupD dw k with
      | none =>
        have hko := hsome k sch hm
        rw [hw] at hko
        simp at hko
      | some w => exact ⟨w, rfl, hrec k sch w hm hw⟩
  · intro h
    refine SchemaConf.node fields dw ?_ ?_
    · intro k sch hm
      obtain ⟨w, hw, _⟩ := h k sch hm
      simp [hw]
    · intro k sch w hm hw
      obtain ⟨w', hw', hc⟩ := h k sch hm
      rw [hw] at hw'
      obtain rfl : w = w' := Option.some.inj hw'
      exact hc

theorem validate_iff : ∀ n : Nat,
    (∀ (l : List (String × Schema)) (d : List (String × Value)), sizeOf l ≤ n →
      (validateRec (Value.dict d) l = some true ↔
        ∀ k sch, (k, sch) ∈ l → ∃ w, lookupD d k = some w ∧ SchemaConf sch w)) ∧
    (∀ (sch : Schema) (k : String) (d : List (String × Value)) (w : Value),
      sizeOf sch ≤ n → lookupD d k = some w →
      (validateEntry (Value.dict d) k sch = some true ↔ SchemaConf sch w)) := by
  intro n
  induction n with
  | zero =>
    constructor
    · intro l d hle
      cases l with
      | nil => simp [validateRec]
      | cons e rest => simp [List.cons.sizeOf_spec] at hle
    · intro sch k d w hle _
      cases sch with
      | ty t => simp [Schema.ty.sizeOf_spec] at hle
      | node fields => simp [Schema.node.sizeOf_spec] at hle
  | succ n ihn =>
    constructor
    · intro l d hle
      cases l with
      | nil => simp [validateRec]
      | cons e rest =>
        obtain ⟨k, sch⟩ := e
        have hsr : sizeOf rest ≤ n := by
          simp [List.cons.sizeOf_spec] at hle
          omega
        have hss : sizeOf sch ≤ n := by
          simp [List.cons.sizeOf_spec, Prod.mk.sizeOf_spec] at hle
          omega
        rw [validateRec]
        cases hlk : lookupD d k with
        | none =>
          simp only [pyContains, hlk, Option.isSome_none, Bool.false_eq_true, if_false]
          constructor
          · intro h
            exact absurd h (by simp)
          · intro h
            obtain ⟨w, hw, _⟩ := h k sch (List.mem_cons_self _ _)
            rw [hlk] at hw
            exact Option.noConfusion hw
        | some w =>
          simp only [pyContains, hlk, Option.isSome_some, if_true]
          have hent := (validate_ne_none (sizeOf sch)).2 sch k d w le_rfl hlk
          cases hv : validateEntry (Value.dict d) k sch with
          | none => exact absurd hv hent
          | some b₂ =>
            have hent_iff := ihn.2 sch k d w hss hlk
            rw [hv] at hent_iff
            cases b₂ with
            | false =>
              simp only [Bool.false_eq_true, if_false]
              constructor
              · intro h
                exact absurd h (by simp)
              · intro h
                obtain ⟨w', hw', hc⟩ := h k sch (List.mem_cons_self _ _)
                rw [hlk] at hw'
                obtain rfl : w = w' := Option.some.inj hw'
                have : (some false : Option Bool) = some true := hent_iff.mpr hc
                exact absurd this (by simp)
            | true =>
              simp only [if_true]
              have hrest := ihn.1 rest d hsr
              constructor
              · intro h k' sch' hm
                rcases List.mem_cons.mp hm with hhd | htl
                · injection hhd with he1 he2
                  subst he1
                  subst he2
                  exact ⟨w, hlk, hent_iff.mp rfl⟩
                · exact (hrest.mp h) k' sch' htl
              · intro h
                exact hrest.mpr (fun k' sch' hm => h k' sch' (List.mem_cons_of_mem _ hm))
    · intro sch k d w hle hlk
      cases sch with
      | ty t =>
        rw [validateEntry]
        simp only [pySubscript, hlk]
        constructor
        · intro h
          have hi : pyIsinstance w t = true := Option.some.inj h
          exact SchemaConf.ty t w hi
        · intro h
          cases h with
          | ty _ _ hi => simp [hi]
      | node fields =>
        have hsf : sizeOf fields ≤ n := by
          simp [Schema.node.sizeOf_spec] at hle
          omega
        rw [validateEntry]
        simp only [pySubscript, hlk]
        cases w with
        | dict dw =>
          simp only [Value.isDict, if_true]
          rw [schemaConf_node_iff]
          exact ihn.1 fields dw hsf
        | null =>
          simp only [Value.isDict, Bool.false_eq_true, if_false]
          constructor
          · intro h
            exact absurd h (by simp)
          · intro h
            cases h
        | bool b =>
          simp only [Value.isDict, Bool.false_eq_true, if_false]
          constructor
          · intro h
            exact absurd h (by simp)
          · intro h
            cases h
        | int m =>
          simp only [Value.isDict, Bool.false_eq_true, if_false]
          constructor
          · intro h
            exact absurd h (by simp)
          · intro h
            cases h
        | float lit =>
          simp only [Value.isDict, Bool.false_eq_true, if_false]
          constructor
          · intro h
            exact absurd h (by simp)
          · intro h
            cases h
        | str sv =>
          simp only [Value.isDict, Bool.false_eq_true, if_false]
          constructor
          · intro h
            exact absurd h (by simp)
          · intro h
            cases h
        | list el =>
          simp only [Value.isDict, Bool.false_eq_true, if_false]
          constructor
          · intro h
            exact absurd h (by simp)
          · intro h
            cases h

theorem validateRec_true_iff (l : List (String × Schema)) (d : List (String × Value)) :
    validateRec (Value.dict d) l = some true ↔
    ∀ k sch, (k, sch) ∈ l → ∃ w, lookupD d k = some w ∧ SchemaConf sch w :=
  (validate_iff (sizeOf l)).1 l d le_rfl

theorem validateRec_dict_ne_none (l : List (String × Schema)) (d : List (String × Value)) :
    validateRec (Value.dict d) l ≠ none :=
  (validate_ne_none (sizeOf l)).1 l d le_rfl

theorem validateEntry_agree (k : String) (sch : Schema) (d d₂ : List (String × Value))
    (h : lookupD d₂ k = lookupD d k) :
    validateEntry (Value.dict d₂) k sch = validateEntry (Value.dict d) k sch := by
  cases sch with
  | ty t =>
    rw [validateEntry, validateEntry]
    simp only [pySubscript, h]
  | node fields =>
    rw [validateEntry, validateEntry]
    simp only [pySubscript, h]

theorem validateRec_agree (l : List (String × Schema)) :
    ∀ (d d₂ : List (String × Value)),
    (∀ k sch, (k, sch) ∈ l → lookupD d₂ k = lookupD d k) →
    validateRec (Value.dict d₂) l = validateRec (Value.dict d) l := by
  induction l with
  | nil => intro d d₂ _; rfl
  | cons e rest ih =>
    obtain ⟨k, sch⟩ := e
    intro d d₂ hag
    have hk := hag k sch (List.mem_cons_self _ _)
    rw [validateRec, validateRec]
    simp only [pyContains, hk]
    rw [validateEntry_agree k sch d d₂ hk]
    rw [ih d d₂ (fun k' sch' hm => hag k' sch' (List.mem_cons_of_mem _ hm))]

theorem validate_first_violation (l₁ : List (String × Schema)) :
    ∀ (d : List (String × Value)) (k : String) (sch : Schema) (l₂ : List (String × Schema)),
    (∀ k' sch', (k', sch') ∈ l₁ → ∃ w, lookupD d k' = some w ∧ SchemaConf sch' w) →
    (¬ ∃ w, lookupD d k = some w ∧ SchemaConf sch w) →
    ConfigManager.validateConfig (Value.dict d) (l₁ ++ (k, sch) :: l₂) = false := by
  induction l₁ with
  | nil =>
    intro d k sch l₂ _ hbad
    unfold ConfigManager.validateConfig
    simp only [List.nil_append]
    cases hv : validateRec (Value.dict d) ((k, sch) :: l₂) with
    | none => exact absurd hv (validateRec_dict_ne_none _ _)
    | some b =>
      cases b with
      | false => rfl
      | true =>
        have hall := (validateRec_true_iff ((k, sch) :: l₂) d).mp hv
        exact absurd (hall k sch (List.mem_cons_self _ _)) hbad
  | cons e rest ih =>
    obtain ⟨k₁, sch₁⟩ := e
    intro d k sch l₂ hconf hbad
    obtain ⟨w₁, hw₁, hc₁⟩ := hconf k₁ sch₁ (List.mem_cons_self _ _)
    unfold ConfigManager.validateConfig
    simp only [List.cons_append]
    rw [validateRec]
    simp only [pyContains, hw₁, Option.isSome_some, if_true]
    have hent : validateEntry (Value.dict d) k₁ sch₁ = some true :=
      ((validate_iff (sizeOf sch₁)).2 sch₁ k₁ d w₁ le_rfl hw₁).mpr hc₁
    rw [hent]
    exact ih d k sch l₂ (fun k' sch' hm => hconf k' sch' (List.mem_cons_of_mem _ hm)) hbad

/-- C5: `validate_config` on a dict-rooted tree returns `true` exactly when
every schema key (recursively) is present with the expected shape; it
depends only on the tree's values at schema keys, so extra unlisted keys are
never a violation; and when a prefix of the schema conforms and the next key
violates, the result is `false` regardless of the remaining schema — the
walk stops at the first violation in schema-declaration order.  The check is
a pure function of the tree in this embedding, so it never mutates it. -/
theorem c5_validate_characterization :
    (∀ (d : List (String × Value)) (l : List (String × Schema)),
      ConfigManager.validateConfig (Value.dict d) l = true ↔
        ∀ k sch, (k, sch) ∈ l → ∃ w, lookupD d k = some w ∧ SchemaConf sch w) ∧
    (∀ (d d₂ : List (String × Value)) (l : List (String × Schema)),
      (∀ k sch, (k, sch) ∈ l → lookupD d₂ k = lookupD d k) →
      ConfigManager.validateConfig (Value.dict d₂) l
        = ConfigManager.validateConfig (Value.dict d) l) ∧
    (∀ (d : List (String × Value)) (l₁ : List (String × Schema)) (k : String)
      (sch : Schema) (l₂ : List (String × Schema)),
      (∀ k' sch', (k', sch') ∈ l₁ → ∃ w, lookupD d k' = some w ∧ SchemaConf sch' w) →
      (¬ ∃ w, lookupD d k = some w ∧ SchemaConf sch w) →
      ConfigManager.validateConfig (Value.dict d) (l₁ ++ (k, sch) :: l₂) = false) := by
  refine ⟨?_, ?_, ?_⟩
  · intro d l
    unfold ConfigManager.validateConfig
    rw [← validateRec_true_iff l d]
    cases hv : validateRec (Value.dict d) l with
    | none => exact absurd hv (validateRec_dict_ne_none _ _)
    | some b => cases b <;> simp
  · intro d d₂ l hag
    unfold ConfigManager.validateConfig
    rw [validateRec_agree l d d₂ hag]
  · intro d l₁ k sch l₂ hconf hbad
    exact validate_first_violation l₁ d k sch l₂ hconf hbad

/-- Witness for C5: a conforming tree validates; adding an extra unlisted
key does not change the verdict; and a schema whose first key is missing
from the tree yields `false`. -/
theorem c5_validate_characterization_witness :
    ConfigManager.validateConfig (Value.dict [("port", Value.int 8080)])
      [("port", Schema.ty PyType.tInt)] = true ∧
    ConfigManager.validateConfig (Value.dict [("port", Value.int 8080), ("extra", Value.str "x")])
      [("port", Schema.ty PyType.tInt)]
      = ConfigManager.validateConfig (Value.dict [("port", Value.int 8080)])
        [("port", Schema.ty PyType.tInt)] ∧
    ConfigManager.validateConfig (Value.dict [("port", Value.int 8080)])
      [("missing", Schema.ty PyType.tInt)] = false := by
  refine ⟨?_, ?_, ?_⟩
  · apply (c5_validate_characterization.1 [("port", Value.int 8080)]
      [("port", Schema.ty PyType.tInt)]).mpr
    intro k sch hm
    simp only [List.mem_singleton] at hm
    injection hm with h1 h2
    subst h1
    subst h2
    exact ⟨Value.int 8080, rfl, SchemaConf.ty PyType.tInt (Value.int 8080) rfl⟩
  · apply c5_validate_characterization.2.1
    intro k sch hm
    simp only [List.mem_singleton] at hm
    injection hm with h1 h2
    subst h1
    rfl
  · have h := c5_validate_characterization.2.2 [("port", Value.int 8080)] []
      "missing" (Schema.ty PyType.tInt) []
      (by intro k' sch' hm; simp at hm)
      (by
        rintro ⟨w, hw, _⟩
        exact Option.noConfusion hw)
    simpa using h
